import Mathlib

/-!
# EMMMA-K Master: telemetry parser, touch mapper and scale generator

A shallow embedding of `src/main.cpp`.  The globals of the sketch and the
function-local statics of `serial3state` are the fields of one `State`;
every function of the sketch is a function from a state (and the bytes or
samples it reads from the hardware) to the next state and the list of
calls it made on the MIDI transport.

Integer widths follow the declarations of the source: `uint8_t` values are
naturals reduced modulo 256, `int8_t`/`int16_t` values are integers, and
`int` is the 32-bit `int` of the Teensy 3.x boards the sketch is written
for (`Serial3`, `usbMIDI`, `touchablePin`).

`case 3` of `serial3state` stores the sixth payload byte at `rpy[6]`,
outside `int8_t rpy[6]`.  The functions that run the parser take the
placement `Layout` of that byte as a parameter, and what is proved of the
program is proved for both placements that are modelled.
-/

namespace EMMMAK

/-! ## Observable trace -/

/-- One entry of the trace of a run.  `noteOn`, `noteOff` and `pitchBend`
are the calls `usbMIDI.sendNoteOn`, `usbMIDI.sendNoteOff` and
`usbMIDI.sendPitchBend` with their arguments in source order, each the
value of the argument expression of the source.  The first
field `key` of a note entry is a ghost value: the index `i` (or `i + 11`)
into `notesOn`/`midiValues` of the loop iteration that made the call; it is
not sent on the wire.  `decoded p r y` is a ghost entry recording the
locals `p`, `r`, `y` each time `case 4` of `serial3state` runs. -/
inductive Out where
  | decoded (p r y : Int)
  | noteOn (key : Nat) (note : Int) (velocity channel : Nat)
  | noteOff (key : Nat) (note : Int) (velocity channel : Nat)
  | pitchBend (value : Int) (channel : Nat)
  deriving DecidableEq, Repr

/-! ## Program state -/

/-- The globals `notesOn`, `midiValues`, `enableBend` and the statics
`state`, `idx`, `rpy`, `lastp`, `lastr` of `serial3state`.  `lastp` and
`lastr` are `none` until their declaration (`static int16_t lastp = p;`)
has been passed for the first time. -/
structure State where
  notesOn : List Bool
  midiValues : List Nat
  enableBend : Bool
  state : Nat
  idx : Nat
  rpy : List Int
  lastp : Option Int
  lastr : Option Int
  deriving DecidableEq, Repr

/-- `uint8_t majorscale[]`. -/
def majorscale : List Nat := [2, 2, 1, 2, 2, 2, 1]

/-- `uint8_t minorscale[]`. -/
def minorscale : List Nat := [2, 1, 2, 2, 1, 2, 2]

/-- `uint8_t pentascale[]`. -/
def pentascale : List Nat := [2, 2, 3, 2, 3]

/-- `uint8_t minorpentascale[]`. -/
def minorpentascale : List Nat := [3, 2, 2, 3, 2]

/-- `uint8_t minorbluesscale[]`. -/
def minorbluesscale : List Nat := [3, 2, 1, 1, 3, 2]

/-- The initialiser of `uint8_t midiValues[]` that is not commented out. -/
def midiValues : List Nat :=
  [60, 62, 63, 65, 67, 68, 70, 72, 74, 75, 77, 79, 80, 82, 84, 86, 87]

/-- The state at program start: the initialisers of the globals, and
zero-initialised statics. -/
def initState : State where
  notesOn := List.replicate 17 false
  midiValues := midiValues
  enableBend := false
  state := 0
  idx := 0
  rpy := List.replicate 6 0
  lastp := none
  lastr := none

/-! ## Machine arithmetic -/

/-- Conversion of a `uint8_t` to `int8_t` (two's complement). -/
def toInt8 (c : Nat) : Int :=
  if c % 256 < 128 then ((c % 256 : Nat) : Int) else ((c % 256 : Nat) : Int) - 256

/-- Reduction of an integer to the range of the 32-bit `int`. -/
def wrapInt32 (x : Int) : Int :=
  (x + 2147483648) % 4294967296 - 2147483648

/-- `#define G 7`. -/
def G : Int := 7

/-- `#define OCTAVE 12`. -/
def OCTAVE : Int := 12

/-- The expression `midiValues[i] + KEY` after macro expansion, that is
`midiValues[i] + G - OCTAVE`, evaluated in `int`. -/
def notePitch (mv : List Nat) (i : Nat) : Int :=
  ((mv.getD i 0 : Nat) : Int) + G - OCTAVE

/-! ## `scaleToMidiValues` -/

/-- Body of the `for` loop of `scaleToMidiValues` at index `i`:
`midiValues[i] = midiValues[i - 1] + scale[(i - 1) % size]`, the sum being
stored into a `uint8_t`. -/
def scaleStep (scale : List Nat) (size : Nat) (mv : List Nat) (i : Nat) : List Nat :=
  mv.set i ((mv.getD (i - 1) 0 + scale.getD ((i - 1) % size) 0) % 256)

/-- `void scaleToMidiValues(uint8_t *scale, uint8_t size)`:
`for(int i = 1; i < 17; i++)` over the global `midiValues`. -/
def scaleToMidiValues (scale : List Nat) (size : Nat) (s : State) : State :=
  { s with midiValues := (List.range' 1 16).foldl (scaleStep scale size) s.midiValues }

/-! ## `serial3state` -/

/-- Where the byte of the store `rpy[idx] = c` goes when `idx` is 6.  The
index lies outside `int8_t rpy[6]`, so the source gives the store no
meaning and its effect depends on what the build places behind the array.
Two placements are modelled: `spare`, the byte falls on no variable of the
sketch, and `cursor`, the byte falls on the one-byte cursor `idx` declared
next to the array.  A property of the program is stated for both. -/
inductive Layout where
  | spare
  | cursor
  deriving DecidableEq, Repr

/-- The effect of the store `rpy[6] = c` on the variables, for the byte `c`
and the placement `L`: none under `spare`; under `cursor` the cursor takes
the value of the byte. -/
def spill (L : Layout) (c : Nat) (s : State) : State :=
  match L with
  | Layout.spare => s
  | Layout.cursor => { s with idx := c }

/-- The body of the `while` loop of `serial3state` for one byte `c0` read
from `Serial3`.  In `case 3` the test uses the old value of `idx` and the
store uses the incremented one; the store is made in the array when the
incremented cursor is below 6 and is the out-of-bounds store `spill`
when it is 6. -/
def serial3byte (L : Layout) (c0 : Nat) (s : State) : State × List Out :=
  let c := c0 % 256
  match s.state with
  | 0 => (if c = 36 then { s with state := 1 } else s, [])
  | 1 => (if c = 84 then { s with state := 2 } else { s with state := 0 }, [])
  | 2 => (if c = 65 then { s with state := 3 } else { s with state := 0 }, [])
  | 3 =>
    let idx1 := (s.idx + 1) % 256
    if s.idx < 6 then
      if idx1 < 6 then
        ({ s with idx := idx1, rpy := s.rpy.set idx1 (toInt8 c) }, [])
      else
        (spill L c { s with idx := idx1 }, [])
    else
      ({ s with idx := idx1, state := 4 }, [])
  | 4 =>
    let p := s.rpy.getD 1 0
    let r := s.rpy.getD 3 0
    let y := s.rpy.getD 5 0
    let lastp0 := s.lastp.getD p
    let lastr0 := s.lastr.getD r
    let lastr1 := if r ≠ lastr0 then r else lastr0
    if s.enableBend then
      ({ s with lastp := some p, lastr := some lastr1, idx := 0, state := 0 },
        [Out.decoded p r y,
         if p > 0 then Out.pitchBend (wrapInt32 (p * 2 ^ 9)) 1 else Out.pitchBend 0 1])
    else
      ({ s with lastp := some lastp0, lastr := some lastr1, idx := 0, state := 0 },
        Out.decoded p r y :: (if lastp0 ≠ 0 then [Out.pitchBend 0 1] else []))
  | _ => (s, [])

/-- `void serial3state()`: the `while(Serial3.available())` loop over the
bytes that are available when it is called. -/
def serial3state (L : Layout) : List Nat → State → State × List Out
  | [], s => (s, [])
  | c :: cs, s =>
    let r1 := serial3byte L c s
    let r2 := serial3state L cs r1.1
    (r2.1, r1.2 ++ r2.2)

/-! ## `loop` -/

/-- The touch edge detector that `loop` applies to index `k` of `notesOn`
(`k = i` for the local pins, `k = i + 11` for the remote bits; the two
copies in the source differ only in the index and in where `touched` comes
from). -/
def touchKey (k : Nat) (touched : Bool) (s : State) : State × List Out :=
  if touched then
    if !s.notesOn.getD k false then
      ({ s with notesOn := s.notesOn.set k true }, [Out.noteOn k (notePitch s.midiValues k) 99 1])
    else (s, [])
  else
    if s.notesOn.getD k false then
      ({ s with notesOn := s.notesOn.set k false }, [Out.noteOff k (notePitch s.midiValues k) 99 1])
    else (s, [])

/-- What one execution of `loop` reads from the hardware: the bytes
available on `Serial3` at the `i`-th call of `serial3state`, the result of
`pins[i].isTouched()`, and the byte read from `Serial2` when one is
available. -/
structure LoopInput where
  telemetry : Nat → List Nat
  touched : Nat → Bool
  status : Option Nat

/-- Body of `for(int i = 0; i < 11; i++)` in `loop`. -/
def localStep (L : Layout) (inp : LoopInput) (acc : State × List Out) (i : Nat) :
    State × List Out :=
  let r1 := serial3state L (inp.telemetry i) acc.1
  let r2 := touchKey i (inp.touched i) r1.1
  (r2.1, acc.2 ++ r1.2 ++ r2.2)

/-- Body of `for(int i = 0; i < 6; i++)` in `loop`, for the status byte `p`. -/
def remoteStep (p : Nat) (acc : State × List Out) (i : Nat) : State × List Out :=
  let r := touchKey (i + 11) (p &&& (1 <<< i) != 0) acc.1
  (r.1, acc.2 ++ r.2)

/-- The block `if(Serial2.available())` of `loop` for the byte `p0` read
(the `#if 1` branch). -/
def remoteStatus (p0 : Nat) (s : State) : State × List Out :=
  let p := p0 % 256
  (List.range 6).foldl (remoteStep p) ({ s with enableBend := p &&& 0x40 != 0 }, [])

/-- `void loop()`.  The write of the request byte to `Serial2` and the
draining of inbound MIDI change none of the modelled variables. -/
def loop (L : Layout) (inp : LoopInput) (s : State) : State × List Out :=
  let a := (List.range 11).foldl (localStep L inp) (s, [])
  match inp.status with
  | none => a
  | some p =>
    let b := remoteStatus p a.1
    (b.1, a.2 ++ b.2)

/-- Successive executions of `loop`, one per element of `inps`. -/
def runLoop (L : Layout) : List LoopInput → State → State × List Out
  | [], s => (s, [])
  | inp :: inps, s =>
    let r1 := loop L inp s
    let r2 := runLoop L inps r1.1
    (r2.1, r1.2 ++ r2.2)

/-! ## Reading a trace -/

/-- The axes `(p, r, y)` of the frames decoded along a trace, in order. -/
def frames (t : List Out) : List (Int × Int × Int) :=
  t.filterMap fun e => match e with
    | Out.decoded p r y => some (p, r, y)
    | _ => none

/-- The `(value, channel)` arguments of the pitch-bend calls of a trace. -/
def bends (t : List Out) : List (Int × Nat) :=
  t.filterMap fun e => match e with
    | Out.pitchBend v ch => some (v, ch)
    | _ => none

/-- The note calls made for key `k` along a trace: `true` for a note-on,
`false` for a note-off. -/
def keyEdges (k : Nat) (t : List Out) : List Bool :=
  t.filterMap fun e => match e with
    | Out.noteOn j _ _ _ => if j = k then some true else none
    | Out.noteOff j _ _ _ => if j = k then some false else none
    | _ => none

/-! ## Telemetry streams -/

/-- Eleven bytes on `Serial3`: the preamble `'$' 'T' 'A'`, six payload bytes
`b0..b5` and two further bytes `x`, `y`. -/
structure Frame where
  b0 : Nat
  b1 : Nat
  b2 : Nat
  b3 : Nat
  b4 : Nat
  b5 : Nat
  x : Nat
  y : Nat

/-- The bytes of a frame in the order they are sent. -/
def Frame.bytes (f : Frame) : List Nat :=
  [36, 84, 65, f.b0, f.b1, f.b2, f.b3, f.b4, f.b5, f.x, f.y]

/-- The byte sequence `"$T$TA"` followed by `1, 10, 2, 20, 3, 30`. -/
def resyncStream : List Nat := [36, 84, 36, 84, 65, 1, 10, 2, 20, 3, 30]

/-! ## Loop inputs used in the evaluations -/

/-- Nothing touched, no telemetry; the status byte 0x40 enables bend. -/
def cycleEnable : LoopInput := ⟨fun _ => [], fun _ => false, some 0x40⟩

/-- The frame whose six payload bytes are all 10, followed by two zero
bytes: its pitch is 10 whichever payload byte is read as the pitch. -/
def frame10 : Frame := ⟨10, 10, 10, 10, 10, 10, 0, 0⟩

/-- The frame `frame10` arrives before the first pin is evaluated; the
status byte 0 then disables bend. -/
def cycleFrameThenDisable : LoopInput :=
  ⟨fun i => if i = 0 then frame10.bytes else [], fun _ => false, some 0⟩

/-- The frame `frame10` arrives; no status byte is available. -/
def cycleFrame : LoopInput :=
  ⟨fun i => if i = 0 then frame10.bytes else [], fun _ => false, none⟩

/-! ## Touch samples and their transitions -/

/-- The edge detection as the specification words it: one entry for each
transition of the sample sequence `xs` that starts from the stored state
`prev` (`true` for false-to-true, `false` for true-to-false), in order, and
none for a held state. -/
def specEdges : Bool → List Bool → List Bool
  | _, [] => []
  | prev, x :: xs => if x = prev then specEdges x xs else x :: specEdges x xs

/-- The touched-state sample one execution of `loop` evaluates for key `k`,
if it evaluates one: the local pin for `k < 11`, bit `k - 11` of the status
byte for the remote keys when a status byte is available. -/
def sample (k : Nat) (inp : LoopInput) : Option Bool :=
  if k < 11 then some (inp.touched k) else inp.status.map fun p => p.testBit (k - 11)

/-- The samples evaluated for key `k` over successive executions of `loop`. -/
def samples (k : Nat) (inps : List LoopInput) : List Bool :=
  inps.filterMap (sample k)

/-- A loop whose body runs the edge detector for key `key i` on sample
`smp i`, after a step `pre` that neither changes `notesOn` nor makes note
calls. -/
def touchFold (pre : Nat → State → State × List Out) (key : Nat → Nat) (smp : Nat → Bool)
    (acc : State × List Out) (i : Nat) : State × List Out :=
  ((touchKey (key i) (smp i) (pre i acc.1).1).1,
    acc.2 ++ (pre i acc.1).2 ++ (touchKey (key i) (smp i) (pre i acc.1).1).2)

/-- An execution of `loop` with no telemetry and no status byte, in which
pin `k` is touched iff `x`. -/
def touchCycle (k : Nat) (x : Bool) : LoopInput :=
  ⟨fun _ => [], fun i => decide (i = k) && x, none⟩

/-- An execution of `loop` with no telemetry and no pin touched, in which
the status byte `p` is read. -/
def statusCycle (p : Nat) : LoopInput :=
  ⟨fun _ => [], fun _ => false, some p⟩

/-! ## Step sums of a scale -/

/-- The sum `P[0 mod L] + P[1 mod L] + ... + P[(i-1) mod L]` of the first
`i` steps of the pattern `P`, wrapping through its first `L` entries. -/
def stepSum (P : List Nat) (L : Nat) : Nat → Nat
  | 0 => 0
  | i + 1 => stepSum P L i + P.getD (i % L) 0

/-- A state whose table holds the tonic `T` in `midiValues[0]`. -/
def withTonic (T : Nat) : State :=
  { initState with midiValues := T :: List.replicate 16 0 }

/-! ## The store of `case 3` -/

/-- The index of `rpy` that `case 3` of `serial3state` writes when it
handles the next byte: the incremented cursor when the test `idx++ < 6`
succeeds, and none in every other case. -/
def storeIndex (s : State) : Option Nat :=
  if s.state = 3 ∧ s.idx < 6 then some ((s.idx + 1) % 256) else none

/-! ## Note calls -/

/-- A trace entry is well formed for the table `mv`: a note call for key
`k` has `k < 17`, the note `mv[k] + G - OCTAVE`, velocity 99 and channel 1;
the other entries are not constrained. -/
def noteCallOK (mv : List Nat) : Out → Prop
  | Out.noteOn k n v c => k < 17 ∧ n = notePitch mv k ∧ v = 99 ∧ c = 1
  | Out.noteOff k n v c => k < 17 ∧ n = notePitch mv k ∧ v = 99 ∧ c = 1
  | _ => True

/-- The list of note calls of one key alternates, starting with a note-on
when `b` is true and with a note-off when `b` is false. -/
def alternates : Bool → List Bool → Bool
  | _, [] => true
  | b, x :: xs => x == b && alternates (!b) xs

/-! ## The telemetry parser -/

variable {L : Layout}

theorem serial3state_append (a b : List Nat) (s : State) :
    serial3state L (a ++ b) s =
      ((serial3state L b (serial3state L a s).1).1,
        (serial3state L a s).2 ++ (serial3state L b (serial3state L a s).1).2) := by
  induction a generalizing s with
  | nil => simp [serial3state]
  | cons c cs ih => simp [serial3state, ih, List.append_assoc]

theorem wrapInt32_shift (p : Int) (h0 : 0 < p) (h1 : p ≤ 127) :
    wrapInt32 (p * 2 ^ 9) = p * 512 := by
  unfold wrapInt32
  omega

/-- The out-of-bounds store changes at most the cursor. -/
theorem spill_fields (c : Nat) (s : State) :
    (spill L c s).notesOn = s.notesOn ∧ (spill L c s).midiValues = s.midiValues ∧
    (spill L c s).enableBend = s.enableBend ∧ (spill L c s).state = s.state ∧
    (spill L c s).rpy = s.rpy ∧ (spill L c s).lastp = s.lastp ∧
    (spill L c s).lastr = s.lastr := by
  cases L <;> exact ⟨rfl, rfl, rfl, rfl, rfl, rfl, rfl⟩

/-- The step `case 4` with bend enabled. -/
theorem serial3byte_case4_enabled (s : State) (c : Nat) (h4 : s.state = 4)
    (hb : s.enableBend = true) :
    serial3byte L c s =
      ({ s with lastp := some (s.rpy.getD 1 0),
                lastr := some (if s.rpy.getD 3 0 ≠ s.lastr.getD (s.rpy.getD 3 0)
                  then s.rpy.getD 3 0 else s.lastr.getD (s.rpy.getD 3 0)),
                idx := 0, state := 0 },
        [Out.decoded (s.rpy.getD 1 0) (s.rpy.getD 3 0) (s.rpy.getD 5 0),
         if s.rpy.getD 1 0 > 0 then Out.pitchBend (wrapInt32 (s.rpy.getD 1 0 * 2 ^ 9)) 1
         else Out.pitchBend 0 1]) := by
  simp [serial3byte, h4, hb]

/-- The step `case 4` with bend disabled. -/
theorem serial3byte_case4_disabled (s : State) (c : Nat) (h4 : s.state = 4)
    (hb : s.enableBend = false) :
    serial3byte L c s =
      ({ s with lastp := some (s.lastp.getD (s.rpy.getD 1 0)),
                lastr := some (if s.rpy.getD 3 0 ≠ s.lastr.getD (s.rpy.getD 3 0)
                  then s.rpy.getD 3 0 else s.lastr.getD (s.rpy.getD 3 0)),
                idx := 0, state := 0 },
        Out.decoded (s.rpy.getD 1 0) (s.rpy.getD 3 0) (s.rpy.getD 5 0) ::
          (if s.lastp.getD (s.rpy.getD 1 0) ≠ 0 then [Out.pitchBend 0 1] else [])) := by
  simp [serial3byte, h4, hb]

/-- C1 (as stated, refuted): from the initial state the stream `"$T$TA"`,
1, 10, 2, 20, 3, 30 does not produce the single decoded frame (10, 20, 30);
it produces no frame at all, in either placement. -/
theorem resync_stream_no_frame_10_20_30 :
    frames (serial3state Layout.spare resyncStream initState).2 ≠ [(10, 20, 30)] ∧
    frames (serial3state Layout.spare resyncStream initState).2 = [] ∧
    frames (serial3state Layout.cursor resyncStream initState).2 ≠ [(10, 20, 30)] ∧
    frames (serial3state Layout.cursor resyncStream initState).2 = [] := by
  decide

/-- C1 (amended): fed to an idle parser, the stream `"$T$TA"`, 1, 10, 2, 20,
3, 30 decodes no frame and emits nothing, and leaves the whole state as it
was: the `'$'` read in `case 2` sends the parser to `case 0`, where the
following bytes are ignored. -/
theorem resync_stream_discarded (L : Layout) (s : State) (h0 : s.state = 0) :
    serial3state L resyncStream s = (s, []) ∧
    frames (serial3state L resyncStream s).2 = [] ∧
    (serial3state L [36, 84, 36] s).1.state = 0 := by
  obtain ⟨no, mv, eb, st, ix, rpy, lp, lr⟩ := s
  simp only at h0
  subst h0
  simp [serial3state, serial3byte, resyncStream, frames]

/-- C1 (amended), at the initial state. -/
theorem resync_stream_discarded_witness :
    initState.state = 0 ∧
    serial3state Layout.spare resyncStream initState = (initState, []) ∧
    serial3state Layout.cursor resyncStream initState = (initState, []) :=
  ⟨rfl, (resync_stream_discarded Layout.spare initState rfl).1,
    (resync_stream_discarded Layout.cursor initState rfl).1⟩

/-- C2 (evaluation at the failing input): on the frame `'$' 'T' 'A'` 1, 10,
2, 20, 3, 30 nothing is decoded when the ninth byte has been read, and
after two further bytes the axes decoded are (1, 2, 3), the bytes `b0`,
`b2`, `b4`, not (10, 20, 30); this holds in either placement of the
out-of-bounds store of the sixth payload byte, after which the cursor is 6
or 30. -/
theorem axis_decode_reads_even_offsets (L : Layout) :
    frames (serial3state L [36, 84, 65, 1, 10, 2, 20, 3, 30] initState).2 = [] ∧
    frames (serial3state L [36, 84, 65, 1, 10, 2, 20, 3, 30, 0, 0] initState).2 = [(1, 2, 3)] ∧
    (serial3state L [36, 84, 65, 1, 10, 2, 20, 3, 30] initState).1.rpy = [0, 1, 10, 2, 20, 3] ∧
    (serial3state L [36, 84, 65, 1, 10, 2, 20, 3, 30] initState).1.idx =
      (match L with
        | Layout.spare => 6
        | Layout.cursor => 30) := by
  cases L <;> decide

theorem serial3byte_enableBend (c : Nat) (s : State) :
    (serial3byte L c s).1.enableBend = s.enableBend := by
  unfold serial3byte
  split <;> simp only [] <;> (try split_ifs) <;>
    first | rfl | exact (spill_fields _ _).2.2.1

theorem serial3state_enableBend (bytes : List Nat) (s : State) :
    (serial3state L bytes s).1.enableBend = s.enableBend := by
  induction bytes generalizing s with
  | nil => rfl
  | cons c cs ih => simp [serial3state, ih, serial3byte_enableBend]

theorem bends_append (a b : List Out) : bends (a ++ b) = bends a ++ bends b := by
  simp [bends]

theorem frames_append (a b : List Out) : frames (a ++ b) = frames a ++ frames b := by
  simp [frames]

/-- Outside `case 4` a step emits nothing. -/
theorem serial3byte_out_nil (c : Nat) (s : State) (h : s.state ≠ 4) :
    (serial3byte L c s).2 = [] := by
  unfold serial3byte
  split
  · rfl
  · rfl
  · rfl
  · simp only []
    split_ifs <;> rfl
  · rename_i h4
    exact absurd h4 h
  · rfl

/-- Outside `case 4` a step leaves `lastp` alone. -/
theorem serial3byte_lastp (c : Nat) (s : State) (h : s.state ≠ 4) :
    (serial3byte L c s).1.lastp = s.lastp := by
  unfold serial3byte
  split
  · simp only []; split_ifs <;> rfl
  · simp only []; split_ifs <;> rfl
  · simp only []; split_ifs <;> rfl
  · simp only []
    split_ifs
    · rfl
    · exact (spill_fields _ _).2.2.2.2.2.1
    · rfl
  · rename_i h4
    exact absurd h4 h
  · rfl

/-- With bend disabled, a byte makes `serial3state` send at most the
zero-valued pitch bend. -/
theorem serial3byte_disabled_bends (c : Nat) (s : State) (hb : s.enableBend = false) :
    ∀ e ∈ bends (serial3byte L c s).2, e = (0, 1) := by
  by_cases h4 : s.state = 4
  · rw [serial3byte_case4_disabled s c h4 hb]
    generalize s.lastp.getD (s.rpy.getD 1 0) = q
    by_cases hq : q = 0 <;> simp [bends, hq]
  · rw [serial3byte_out_nil c s h4]
    simp [bends]

theorem serial3state_disabled_bends (bytes : List Nat) (s : State)
    (hb : s.enableBend = false) :
    ∀ e ∈ bends (serial3state L bytes s).2, e = (0, 1) := by
  induction bytes generalizing s with
  | nil => simp [serial3state, bends]
  | cons c cs ih =>
    intro e he
    simp only [serial3state, bends_append, List.mem_append] at he
    rcases he with he | he
    · exact serial3byte_disabled_bends c s hb e he
    · exact ih _ (by rw [serial3byte_enableBend, hb]) e he

/-- A step in `case 4` decodes a frame. -/
theorem serial3byte_case4_frames (c : Nat) (s : State) (h4 : s.state = 4) :
    frames (serial3byte L c s).2 = [(s.rpy.getD 1 0, s.rpy.getD 3 0, s.rpy.getD 5 0)] := by
  cases hb : s.enableBend with
  | true =>
    rw [serial3byte_case4_enabled s c h4 hb]
    generalize s.rpy.getD 1 0 = p
    by_cases hp : p > 0 <;> simp [frames, hp]
  | false =>
    rw [serial3byte_case4_disabled s c h4 hb]
    generalize s.lastp.getD (s.rpy.getD 1 0) = q
    by_cases hq : q = 0 <;> simp [frames, hq]

/-- As long as no frame has been decoded, `lastp` has not been written. -/
theorem serial3state_lastp (bytes : List Nat) (s : State)
    (h : frames (serial3state L bytes s).2 = []) :
    (serial3state L bytes s).1.lastp = s.lastp := by
  induction bytes generalizing s with
  | nil => rfl
  | cons c cs ih =>
    simp only [serial3state, frames_append, List.append_eq_nil] at h ⊢
    by_cases h4 : s.state = 4
    · rw [serial3byte_case4_frames c s h4] at h
      exact absurd h.1 (by simp)
    · rw [ih _ h.2, serial3byte_lastp c s h4]

/-- A run of `serial3state` that has decoded no frame has emitted nothing. -/
theorem serial3state_out_nil (bytes : List Nat) (s : State)
    (h : frames (serial3state L bytes s).2 = []) : (serial3state L bytes s).2 = [] := by
  induction bytes generalizing s with
  | nil => rfl
  | cons c cs ih =>
    simp only [serial3state, frames_append, List.append_eq_nil] at h ⊢
    by_cases h4 : s.state = 4
    · rw [serial3byte_case4_frames c s h4] at h
      exact absurd h.1 (by simp)
    · exact ⟨serial3byte_out_nil c s h4, ih _ h.2⟩

/-- C3: a frame processed in `case 4` while `enableBend` is true makes
exactly one pitch-bend call, on channel 1, with value `p * 512` when the
decoded pitch `p` (a signed 8-bit value) is positive and 0 otherwise; the
shift does not overflow `int`; bend stays enabled and the parser returns
to `case 0`, so the next frame is treated the same way, whatever was sent
before.  In particular the pitch 50 gives the value 25600. -/
theorem bend_enabled_one_bend_per_frame (L : Layout) (s : State) (c : Nat)
    (h4 : s.state = 4) (hb : s.enableBend = true)
    (hp8 : -128 ≤ s.rpy.getD 1 0 ∧ s.rpy.getD 1 0 ≤ 127) :
    (serial3byte L c s).2 =
      [Out.decoded (s.rpy.getD 1 0) (s.rpy.getD 3 0) (s.rpy.getD 5 0),
        Out.pitchBend (if s.rpy.getD 1 0 > 0 then s.rpy.getD 1 0 * 512 else 0) 1] ∧
    (s.rpy.getD 1 0 > 0 → wrapInt32 (s.rpy.getD 1 0 * 2 ^ 9) = s.rpy.getD 1 0 * 512) ∧
    (serial3byte L c s).1.enableBend = true ∧
    (serial3byte L c s).1.state = 0 ∧
    (s.rpy.getD 1 0 = 50 → bends (serial3byte L c s).2 = [(25600, 1)]) := by
  have hw : s.rpy.getD 1 0 > 0 → wrapInt32 (s.rpy.getD 1 0 * 2 ^ 9) = s.rpy.getD 1 0 * 512 :=
    fun hp => wrapInt32_shift _ hp hp8.2
  have hout : (serial3byte L c s).2 =
      [Out.decoded (s.rpy.getD 1 0) (s.rpy.getD 3 0) (s.rpy.getD 5 0),
        Out.pitchBend (if s.rpy.getD 1 0 > 0 then s.rpy.getD 1 0 * 512 else 0) 1] := by
    rw [serial3byte_case4_enabled s c h4 hb]
    by_cases hp : s.rpy.getD 1 0 > 0
    · simp only [hp, if_true, hw hp]
    · simp only [hp, if_false]
  refine ⟨hout, hw, ?_, ?_, ?_⟩
  · rw [serial3byte_enableBend, hb]
  · rw [serial3byte_case4_enabled s c h4 hb]
  · intro h
    rw [hout, h]
    simp [bends]

/-- C3, at the state reached, with bend enabled, by the preamble, six
payload bytes 50 and one further byte, the out-of-bounds store falling on
the cursor; the next byte makes the call with value 25600, twice in a row
for two such frames. -/
theorem bend_enabled_one_bend_per_frame_witness :
    bends (serial3byte Layout.cursor 0
        (serial3state Layout.cursor [36, 84, 65, 50, 50, 50, 50, 50, 50, 0]
          { initState with enableBend := true }).1).2 = [(25600, 1)] ∧
    bends (serial3byte Layout.cursor 0
        (serial3state Layout.cursor
          [36, 84, 65, 50, 50, 50, 50, 50, 50, 0, 0, 36, 84, 65, 50, 50, 50, 50, 50, 50, 0]
          { initState with enableBend := true }).1).2 = [(25600, 1)] :=
  ⟨(bend_enabled_one_bend_per_frame Layout.cursor
      (serial3state Layout.cursor [36, 84, 65, 50, 50, 50, 50, 50, 50, 0]
        { initState with enableBend := true }).1 0
      (by decide) (by decide) (by decide)).2.2.2.2 (by decide),
    (bend_enabled_one_bend_per_frame Layout.cursor
      (serial3state Layout.cursor
        [36, 84, 65, 50, 50, 50, 50, 50, 50, 0, 0, 36, 84, 65, 50, 50, 50, 50, 50, 50, 0]
        { initState with enableBend := true }).1 0
      (by decide) (by decide) (by decide)).2.2.2.2 (by decide)⟩

/-- C4 (as stated, refuted): from the initial state, where `enableBend` is
false, one frame with pitch 50 already makes a pitch-bend call, in either
placement. -/
theorem bend_disabled_pitch50_sends_bend :
    initState.enableBend = false ∧
    frames (serial3state Layout.spare (Frame.bytes ⟨50, 50, 50, 50, 50, 50, 0, 0⟩)
      initState).2 = [(50, 50, 50)] ∧
    bends (serial3state Layout.spare (Frame.bytes ⟨50, 50, 50, 50, 50, 50, 0, 0⟩)
      initState).2 ≠ [] ∧
    frames (serial3state Layout.cursor (Frame.bytes ⟨50, 50, 50, 50, 50, 50, 0, 0⟩)
      initState).2 = [(50, 50, 50)] ∧
    bends (serial3state Layout.cursor (Frame.bytes ⟨50, 50, 50, 50, 50, 50, 0, 0⟩)
      initState).2 ≠ [] := by
  decide

/-- C4 (amended): from the initial state with `enableBend` false throughout,
let `bytes` be any stream after which the parser is in `case 4` with pitch
50 in `rpy[1]` and no frame decoded yet.  The next byte decodes that first
frame with pitch 50 and makes one pitch-bend call, of value 0 on channel 1,
`lastp` being initialised to 50; and whatever bytes follow, no pitch-bend
call ever carries another value or channel, and bend stays disabled. -/
theorem bend_disabled_only_zero_bends (L : Layout) (bytes : List Nat) (c : Nat)
    (more : List Nat)
    (h4 : (serial3state L bytes initState).1.state = 4)
    (hfirst : frames (serial3state L bytes initState).2 = [])
    (h50 : (serial3state L bytes initState).1.rpy.getD 1 0 = 50) :
    (serial3state L (bytes ++ [c]) initState).2 =
      [Out.decoded 50 ((serial3state L bytes initState).1.rpy.getD 3 0)
          ((serial3state L bytes initState).1.rpy.getD 5 0),
        Out.pitchBend 0 1] ∧
    (serial3state L (bytes ++ [c]) initState).1.lastp = some 50 ∧
    (∀ e ∈ bends (serial3state L (bytes ++ c :: more) initState).2, e = (0, 1)) ∧
    (serial3state L (bytes ++ c :: more) initState).1.enableBend = false := by
  have hb : (serial3state L bytes initState).1.enableBend = false := by
    rw [serial3state_enableBend]
    rfl
  have hlp : (serial3state L bytes initState).1.lastp = none := by
    rw [serial3state_lastp bytes initState hfirst]
    rfl
  have hnil := serial3state_out_nil bytes initState hfirst
  refine ⟨?_, ?_, serial3state_disabled_bends _ _ rfl, ?_⟩
  · rw [serial3state_append, hnil]
    simp only [serial3state, List.nil_append, List.append_nil]
    rw [serial3byte_case4_disabled _ c h4 hb, hlp, h50]
    rfl
  · rw [serial3state_append]
    simp only [serial3state]
    rw [serial3byte_case4_disabled _ c h4 hb, hlp, h50]
    rfl
  · rw [serial3state_enableBend]
    rfl

/-- C4 (amended), at the frame with six payload bytes 50, the out-of-bounds
store falling on the cursor. -/
theorem bend_disabled_only_zero_bends_witness :
    (serial3state Layout.cursor ([36, 84, 65, 50, 50, 50, 50, 50, 50, 0] ++ [0])
        initState).2 = [Out.decoded 50 50 50, Out.pitchBend 0 1] ∧
    (serial3state Layout.cursor ([36, 84, 65, 50, 50, 50, 50, 50, 50, 0] ++ [0])
        initState).1.lastp = some 50 :=
  have h := bend_disabled_only_zero_bends Layout.cursor
    [36, 84, 65, 50, 50, 50, 50, 50, 50, 0] 0 [36, 84, 65, 50, 50, 50, 50, 50, 50, 0, 0]
    (by decide) (by decide) (by decide)
  ⟨h.1, h.2.1⟩

/-- C5 (evaluation at the failing input): bend is enabled, a frame with
pitch 10 is processed (one call, value 5120), bend is disabled, and three
more frames are processed while it is disabled: each of the three makes a
zero-valued pitch-bend call, since `lastp` keeps the value 10.  The sixth
payload byte of the frames is 10, and the evaluation is the same in either
placement of its out-of-bounds store. -/
theorem bend_disable_repeats_zero_bend (L : Layout) :
    bends (runLoop L [cycleEnable, cycleFrameThenDisable] initState).2 = [(5120, 1)] ∧
    (runLoop L [cycleEnable, cycleFrameThenDisable] initState).1.enableBend = false ∧
    (runLoop L [cycleEnable, cycleFrameThenDisable] initState).1.lastp = some 10 ∧
    bends (runLoop L [cycleFrame]
        (runLoop L [cycleEnable, cycleFrameThenDisable] initState).1).2 = [(0, 1)] ∧
    bends (runLoop L [cycleFrame, cycleFrame, cycleFrame]
        (runLoop L [cycleEnable, cycleFrameThenDisable] initState).1).2
      = [(0, 1), (0, 1), (0, 1)] ∧
    (runLoop L [cycleFrame, cycleFrame, cycleFrame]
        (runLoop L [cycleEnable, cycleFrameThenDisable] initState).1).1.lastp = some 10 := by
  cases L <;> decide

/-! ## The touch mapper -/

theorem serial3byte_notesOn (c : Nat) (s : State) :
    (serial3byte L c s).1.notesOn = s.notesOn := by
  unfold serial3byte
  split <;> simp only [] <;> (try split_ifs) <;>
    first | rfl | exact (spill_fields _ _).1

theorem serial3byte_midiValues (c : Nat) (s : State) :
    (serial3byte L c s).1.midiValues = s.midiValues := by
  unfold serial3byte
  split <;> simp only [] <;> (try split_ifs) <;>
    first | rfl | exact (spill_fields _ _).2.1

theorem serial3byte_keyEdges (k c : Nat) (s : State) :
    keyEdges k (serial3byte L c s).2 = [] := by
  unfold serial3byte
  split <;> simp only [] <;> (try split_ifs) <;> simp [keyEdges]

theorem keyEdges_append (k : Nat) (a b : List Out) :
    keyEdges k (a ++ b) = keyEdges k a ++ keyEdges k b := by
  simp [keyEdges]

theorem serial3state_notesOn (bytes : List Nat) (s : State) :
    (serial3state L bytes s).1.notesOn = s.notesOn := by
  induction bytes generalizing s with
  | nil => rfl
  | cons c cs ih => simp [serial3state, ih, serial3byte_notesOn]

theorem serial3state_midiValues (bytes : List Nat) (s : State) :
    (serial3state L bytes s).1.midiValues = s.midiValues := by
  induction bytes generalizing s with
  | nil => rfl
  | cons c cs ih => simp [serial3state, ih, serial3byte_midiValues]

theorem serial3state_keyEdges (k : Nat) (bytes : List Nat) (s : State) :
    keyEdges k (serial3state L bytes s).2 = [] := by
  induction bytes generalizing s with
  | nil => rfl
  | cons c cs ih => simp [serial3state, keyEdges_append, ih, serial3byte_keyEdges]

theorem touchKey_enableBend (k : Nat) (t : Bool) (s : State) :
    (touchKey k t s).1.enableBend = s.enableBend := by
  unfold touchKey
  split <;> split <;> rfl

theorem touchKey_midiValues (k : Nat) (t : Bool) (s : State) :
    (touchKey k t s).1.midiValues = s.midiValues := by
  unfold touchKey
  split <;> split <;> rfl

theorem touchKey_length (k : Nat) (t : Bool) (s : State) :
    (touchKey k t s).1.notesOn.length = s.notesOn.length := by
  unfold touchKey
  split <;> split <;> simp

/-- After the edge detector has run for key `k`, the stored state of `k` is
the sample. -/
theorem touchKey_self (k : Nat) (t : Bool) (s : State) (hk : k < s.notesOn.length) :
    (touchKey k t s).1.notesOn.getD k false = t := by
  unfold touchKey
  split <;> split <;> simp_all [List.getD_eq_getElem?_getD, List.getElem?_set]

/-- The edge detector for key `k` leaves the other keys alone. -/
theorem touchKey_other (k j : Nat) (t : Bool) (s : State) (hj : j ≠ k) :
    (touchKey k t s).1.notesOn[j]? = s.notesOn[j]? := by
  unfold touchKey
  split <;> split <;> simp [List.getElem?_set, Ne.symm hj]

/-- The calls the edge detector for key `k` makes, read for key `j`: one
call when `j = k` and the sample differs from the stored state. -/
theorem touchKey_keyEdges (k j : Nat) (t : Bool) (s : State) :
    keyEdges j (touchKey k t s).2 =
      if k = j ∧ t ≠ s.notesOn.getD k false then [t] else [] := by
  unfold touchKey
  by_cases ht : t = true <;> by_cases ho : s.notesOn.getD k false = true <;>
    by_cases hkj : k = j <;> simp_all [keyEdges]

theorem touchFold_other (pre : Nat → State → State × List Out) (key : Nat → Nat)
    (smp : Nat → Bool)
    (hn : ∀ i s, (pre i s).1.notesOn = s.notesOn) (he : ∀ i s k, keyEdges k (pre i s).2 = [])
    (l : List Nat) (acc : State × List Out) (k : Nat) (hk : ∀ i ∈ l, key i ≠ k) :
    (l.foldl (touchFold pre key smp) acc).1.notesOn[k]? = acc.1.notesOn[k]? ∧
    keyEdges k (l.foldl (touchFold pre key smp) acc).2 = keyEdges k acc.2 := by
  induction l generalizing acc with
  | nil => simp
  | cons i l ih =>
    have hi : key i ≠ k := hk i (List.mem_cons_self _ _)
    obtain ⟨h1, h2⟩ := ih (touchFold pre key smp acc i)
      (fun j hj => hk j (List.mem_cons_of_mem _ hj))
    rw [List.foldl_cons, h1, h2]
    constructor
    · simp only [touchFold]
      rw [touchKey_other _ _ _ _ (Ne.symm hi), hn]
    · simp only [touchFold, keyEdges_append, he, touchKey_keyEdges]
      simp [hi]

theorem touchFold_length (pre : Nat → State → State × List Out) (key : Nat → Nat)
    (smp : Nat → Bool) (hn : ∀ i s, (pre i s).1.notesOn = s.notesOn)
    (l : List Nat) (acc : State × List Out) :
    (l.foldl (touchFold pre key smp) acc).1.notesOn.length = acc.1.notesOn.length := by
  induction l generalizing acc with
  | nil => rfl
  | cons i l ih =>
    rw [List.foldl_cons, ih]
    simp only [touchFold]
    rw [touchKey_length, hn]

theorem touchFold_self (pre : Nat → State → State × List Out) (key : Nat → Nat)
    (smp : Nat → Bool)
    (hn : ∀ i s, (pre i s).1.notesOn = s.notesOn) (he : ∀ i s k, keyEdges k (pre i s).2 = [])
    (hinj : ∀ i j, key i = key j → i = j)
    (l : List Nat) (hl : l.Nodup) (acc : State × List Out) (i : Nat) (hi : i ∈ l)
    (hk : key i < acc.1.notesOn.length) :
    (l.foldl (touchFold pre key smp) acc).1.notesOn.getD (key i) false = smp i ∧
    keyEdges (key i) (l.foldl (touchFold pre key smp) acc).2 =
      keyEdges (key i) acc.2 ++
        (if smp i ≠ acc.1.notesOn.getD (key i) false then [smp i] else []) := by
  induction l generalizing acc with
  | nil => simp at hi
  | cons j l ih =>
    rw [List.nodup_cons] at hl
    rw [List.foldl_cons]
    by_cases hji : j = i
    · subst hji
      have hne : ∀ m ∈ l, key m ≠ key j := fun m hm h => hl.1 (hinj _ _ h ▸ hm)
      obtain ⟨h1, h2⟩ := touchFold_other pre key smp hn he l (touchFold pre key smp acc j)
        (key j) hne
      rw [List.getD_eq_getElem?_getD, h1, h2, ← List.getD_eq_getElem?_getD]
      constructor
      · simp only [touchFold]
        exact touchKey_self _ _ _ (by rw [hn]; exact hk)
      · simp only [touchFold, keyEdges_append, he, touchKey_keyEdges, hn]
        simp
    · have hil : i ∈ l := by
        rcases List.mem_cons.1 hi with h | h
        · exact absurd h.symm hji
        · exact h
      have hkk : key j ≠ key i := fun h => hji (hinj _ _ h)
      have hlen : (touchFold pre key smp acc j).1.notesOn.length = acc.1.notesOn.length := by
        simp only [touchFold]
        rw [touchKey_length, hn]
      obtain ⟨h1, h2⟩ := ih hl.2 (touchFold pre key smp acc j) hil (by rw [hlen]; exact hk)
      rw [h1, h2]
      refine ⟨rfl, ?_⟩
      have hsame : (touchFold pre key smp acc j).1.notesOn.getD (key i) false =
          acc.1.notesOn.getD (key i) false := by
        simp only [touchFold]
        rw [List.getD_eq_getElem?_getD, touchKey_other _ _ _ _ (Ne.symm hkk), hn,
          ← List.getD_eq_getElem?_getD]
      rw [hsame]
      simp only [touchFold, keyEdges_append, he, touchKey_keyEdges]
      simp [hkk]

theorem localStep_eq (inp : LoopInput) :
    localStep L inp =
      touchFold (fun i s => serial3state L (inp.telemetry i) s) (fun i => i) inp.touched := by
  funext acc i
  rfl

theorem remoteStep_eq (p : Nat) :
    remoteStep p =
      touchFold (fun _ s => (s, [])) (fun i => i + 11) (fun i => p &&& (1 <<< i) != 0) := by
  funext acc i
  simp [remoteStep, touchFold]

/-- The test `p & (1 << i)` of the source reads bit `i` of the byte. -/
theorem and_shift_testBit (p i : Nat) (hi : i < 8) :
    ((p % 256) &&& (1 <<< i) != 0) = p.testBit i := by
  have h256 : (256 : Nat) = 2 ^ 8 := by norm_num
  rw [Nat.one_shiftLeft, Nat.and_two_pow, h256, Nat.testBit_mod_two_pow]
  have hpos : 2 ^ i ≠ 0 := by positivity
  cases h : p.testBit i <;> simp [hi, hpos]

/-- The test `p & 0x40` of the source reads bit 6 of the byte. -/
theorem and_0x40_testBit (p : Nat) : ((p % 256) &&& 0x40 != 0) = p.testBit 6 := by
  have h := and_shift_testBit p 6 (by norm_num)
  simpa using h

theorem touchFold_enableBend (pre : Nat → State → State × List Out) (key : Nat → Nat)
    (smp : Nat → Bool) (hb : ∀ i s, (pre i s).1.enableBend = s.enableBend)
    (l : List Nat) (acc : State × List Out) :
    (l.foldl (touchFold pre key smp) acc).1.enableBend = acc.1.enableBend := by
  induction l generalizing acc with
  | nil => rfl
  | cons i l ih =>
    rw [List.foldl_cons, ih]
    simp only [touchFold]
    rw [touchKey_enableBend, hb]

/-- The `for` loop over the eleven local pins: sizes and `enableBend` are
kept. -/
theorem localLoop_frame (inp : LoopInput) (s : State) :
    ((List.range 11).foldl (localStep L inp) (s, [])).1.notesOn.length = s.notesOn.length ∧
    ((List.range 11).foldl (localStep L inp) (s, [])).1.enableBend = s.enableBend := by
  rw [localStep_eq]
  exact ⟨touchFold_length _ _ _ (fun _ _ => serial3state_notesOn _ _) _ _,
    touchFold_enableBend _ _ _ (fun _ _ => serial3state_enableBend _ _) _ _⟩

/-- The `for` loop over the eleven local pins, read for a local key. -/
theorem localLoop_local (inp : LoopInput) (s : State) (k : Nat) (hk : k < 11)
    (hlen : k < s.notesOn.length) :
    ((List.range 11).foldl (localStep L inp) (s, [])).1.notesOn.getD k false = inp.touched k ∧
    keyEdges k ((List.range 11).foldl (localStep L inp) (s, [])).2 =
      (if inp.touched k ≠ s.notesOn.getD k false then [inp.touched k] else []) := by
  rw [localStep_eq]
  have h := touchFold_self (fun i s => serial3state L (inp.telemetry i) s) (fun i => i)
    inp.touched (fun _ _ => serial3state_notesOn _ _) (fun _ _ _ => serial3state_keyEdges _ _ _)
    (fun _ _ h => h) (List.range 11) (List.nodup_range 11) (s, []) k (List.mem_range.2 hk) hlen
  simpa [keyEdges] using h

/-- The `for` loop over the eleven local pins, read for a key that is not
local. -/
theorem localLoop_remote (inp : LoopInput) (s : State) (k : Nat) (hk : 11 ≤ k) :
    ((List.range 11).foldl (localStep L inp) (s, [])).1.notesOn[k]? = s.notesOn[k]? ∧
    keyEdges k ((List.range 11).foldl (localStep L inp) (s, [])).2 = [] := by
  rw [localStep_eq]
  have h := touchFold_other (fun i s => serial3state L (inp.telemetry i) s) (fun i => i)
    inp.touched (fun _ _ => serial3state_notesOn _ _) (fun _ _ _ => serial3state_keyEdges _ _ _)
    (List.range 11) (s, []) k (fun i hi => by have := List.mem_range.1 hi; show i ≠ k; omega)
  simpa [keyEdges] using h

/-- The status-byte block: sizes are kept and `enableBend` is bit 6. -/
theorem remoteStatus_frame (p : Nat) (s : State) :
    (remoteStatus p s).1.notesOn.length = s.notesOn.length ∧
    (remoteStatus p s).1.enableBend = p.testBit 6 := by
  unfold remoteStatus
  simp only [remoteStep_eq]
  refine ⟨touchFold_length _ _ _ (fun _ _ => rfl) _ _, ?_⟩
  rw [touchFold_enableBend _ _ _ (fun _ _ => rfl)]
  exact and_0x40_testBit p

/-- The status-byte block, read for remote key `i + 11`. -/
theorem remoteStatus_remote (p : Nat) (s : State) (i : Nat) (hi : i < 6)
    (hlen : i + 11 < s.notesOn.length) :
    (remoteStatus p s).1.notesOn.getD (i + 11) false = p.testBit i ∧
    keyEdges (i + 11) (remoteStatus p s).2 =
      (if p.testBit i ≠ s.notesOn.getD (i + 11) false then [p.testBit i] else []) := by
  unfold remoteStatus
  simp only [remoteStep_eq]
  have h := touchFold_self (fun _ s => (s, [])) (fun i => i + 11)
    (fun i => (p % 256) &&& (1 <<< i) != 0) (fun _ _ => rfl) (fun _ _ _ => rfl)
    (fun a b h => by have h' : a + 11 = b + 11 := h; omega) (List.range 6) (List.nodup_range 6)
    ({ s with enableBend := (p % 256) &&& 0x40 != 0 }, []) i (List.mem_range.2 hi) hlen
  beta_reduce at h
  rw [and_shift_testBit p i (by omega)] at h
  simpa [keyEdges] using h

/-- The status-byte block, read for a key outside 11..16. -/
theorem remoteStatus_other (p : Nat) (s : State) (k : Nat) (hk : k < 11 ∨ 17 ≤ k) :
    (remoteStatus p s).1.notesOn[k]? = s.notesOn[k]? ∧
    keyEdges k (remoteStatus p s).2 = [] := by
  unfold remoteStatus
  simp only [remoteStep_eq]
  have h := touchFold_other (fun _ s => (s, [])) (fun i => i + 11)
    (fun i => (p % 256) &&& (1 <<< i) != 0) (fun _ _ => rfl) (fun _ _ _ => rfl)
    (List.range 6) ({ s with enableBend := (p % 256) &&& 0x40 != 0 }, []) k
    (fun i hi => by have := List.mem_range.1 hi; show i + 11 ≠ k; omega)
  simpa [keyEdges] using h

theorem loop_none (inp : LoopInput) (s : State) (h : inp.status = none) :
    loop L inp s = (List.range 11).foldl (localStep L inp) (s, []) := by
  simp [loop, h]

theorem loop_some (inp : LoopInput) (s : State) (p : Nat) (h : inp.status = some p) :
    loop L inp s =
      ((remoteStatus p ((List.range 11).foldl (localStep L inp) (s, [])).1).1,
        ((List.range 11).foldl (localStep L inp) (s, [])).2 ++
          (remoteStatus p ((List.range 11).foldl (localStep L inp) (s, [])).1).2) := by
  simp [loop, h]

theorem loop_length (inp : LoopInput) (s : State) :
    (loop L inp s).1.notesOn.length = s.notesOn.length := by
  cases h : inp.status with
  | none => rw [loop_none inp s h]; exact (localLoop_frame inp s).1
  | some p =>
    rw [loop_some inp s p h]
    exact ((remoteStatus_frame p
      ((List.range 11).foldl (localStep L inp) (s, [])).1).1).trans (localLoop_frame inp s).1

/-- One execution of `loop`, read for key `k`: the stored state becomes the
sample evaluated for `k` (or stays, when none is evaluated), and a note
call is made for `k` exactly when the sample differs from the stored
state. -/
theorem loop_key (inp : LoopInput) (s : State) (k : Nat) (hk : k < 17)
    (hlen : s.notesOn.length = 17) :
    (loop L inp s).1.notesOn.getD k false = (sample k inp).getD (s.notesOn.getD k false) ∧
    keyEdges k (loop L inp s).2 = specEdges (s.notesOn.getD k false) (sample k inp).toList := by
  by_cases hloc : k < 11
  · obtain ⟨h1, h2⟩ := localLoop_local inp s k hloc (by omega)
    have hs : sample k inp = some (inp.touched k) := by simp [sample, hloc]
    cases h : inp.status with
    | none =>
      rw [loop_none inp s h, h1, h2, hs]
      by_cases hx : inp.touched k = s.notesOn.getD k false <;> simp [specEdges, hx]
    | some p =>
      obtain ⟨h3, h4⟩ := remoteStatus_other p
        ((List.range 11).foldl (localStep L inp) (s, [])).1 k (Or.inl hloc)
      rw [loop_some inp s p h]
      simp only [keyEdges_append, h4, List.append_nil, h2, hs]
      rw [List.getD_eq_getElem?_getD, h3, ← List.getD_eq_getElem?_getD, h1]
      by_cases hx : inp.touched k = s.notesOn.getD k false <;> simp [specEdges, hx]
  · obtain ⟨h1, h2⟩ := localLoop_remote inp s k (by omega)
    have h1' : ((List.range 11).foldl (localStep L inp) (s, [])).1.notesOn.getD k false =
        s.notesOn.getD k false := by
      rw [List.getD_eq_getElem?_getD, h1, ← List.getD_eq_getElem?_getD]
    cases h : inp.status with
    | none =>
      have hs : sample k inp = none := by simp [sample, hloc, h]
      rw [loop_none inp s h, h1', h2, hs]
      simp [specEdges]
    | some p =>
      have hs : sample k inp = some (p.testBit (k - 11)) := by simp [sample, hloc, h]
      have hk11 : k - 11 + 11 = k := by omega
      obtain ⟨h3, h4⟩ := remoteStatus_remote p
        ((List.range 11).foldl (localStep L inp) (s, [])).1 (k - 11) (by omega)
        (by rw [(localLoop_frame inp s).1]; omega)
      rw [hk11] at h3 h4
      rw [loop_some inp s p h]
      simp only [keyEdges_append, h2, List.nil_append, h3, h4, hs, h1']
      by_cases hx : p.testBit (k - 11) = s.notesOn.getD k false <;> simp [specEdges, hx]

theorem lastD_cons (x d : Bool) (xs : List Bool) :
    (x :: xs).getLast?.getD d = xs.getLast?.getD x := by
  rw [List.getLast?_cons, Option.getD_some]

theorem specEdges_append (prev : Bool) (xs ys : List Bool) :
    specEdges prev (xs ++ ys) =
      specEdges prev xs ++ specEdges (xs.getLast?.getD prev) ys := by
  induction xs generalizing prev with
  | nil => simp [specEdges]
  | cons x xs ih =>
    rw [lastD_cons]
    simp only [List.cons_append, specEdges]
    split <;> simp [ih x]

/-- Successive executions of `loop`, read for key `k`. -/
theorem runLoop_key (inps : List LoopInput) (s : State) (k : Nat) (hk : k < 17)
    (hlen : s.notesOn.length = 17) :
    (runLoop L inps s).1.notesOn.length = 17 ∧
    (runLoop L inps s).1.notesOn.getD k false =
      (samples k inps).getLast?.getD (s.notesOn.getD k false) ∧
    keyEdges k (runLoop L inps s).2 = specEdges (s.notesOn.getD k false) (samples k inps) := by
  induction inps generalizing s with
  | nil => simp [runLoop, samples, keyEdges, specEdges, hlen]
  | cons inp inps ih =>
    obtain ⟨h1, h2⟩ := loop_key inp s k hk hlen
    obtain ⟨i1, i2, i3⟩ := ih (loop L inp s).1 ((loop_length inp s).trans hlen)
    have hsm : samples k (inp :: inps) = (sample k inp).toList ++ samples k inps := by
      cases hx : sample k inp <;> simp [samples, List.filterMap_cons, hx]
    simp only [runLoop, keyEdges_append]
    refine ⟨i1, ?_, ?_⟩
    · rw [i2, h1, hsm]
      cases hx : sample k inp with
      | none => simp
      | some x =>
        simp only [Option.toList, List.singleton_append, Option.getD_some]
        rw [lastD_cons]
    · rw [i3, h1, h2, hsm, specEdges_append]
      cases hx : sample k inp <;> simp

/-- C6: for every key `k` in 0..16 whose stored state is false, over any
sequence of executions of `loop` the note calls made for `k` are exactly
the transitions of the samples evaluated for `k` (the pin sample of each
cycle for a local key, the status bit of each received status byte for a
remote key): a note-on per false-to-true transition, a note-off per
true-to-false transition, in order, none for a held state; the stored
state ends as the last sample.  The samples false, false, true, true,
false give exactly a note-on followed by a note-off, for a local key and
for a remote key. -/
theorem touch_edge_detection (L : Layout) (inps : List LoopInput) (s : State) (k : Nat)
    (hk : k < 17) (hlen : s.notesOn.length = 17) (hoff : s.notesOn.getD k false = false) :
    keyEdges k (runLoop L inps s).2 = specEdges false (samples k inps) ∧
    (runLoop L inps s).1.notesOn.getD k false = (samples k inps).getLast?.getD false ∧
    specEdges false [false, false, true, true, false] = [true, false] ∧
    (runLoop L ([false, false, true, true, false].map (touchCycle 3)) initState).2 =
      [Out.noteOn 3 60 99 1, Out.noteOff 3 60 99 1] ∧
    (runLoop L ([0, 0, 1, 1, 0].map statusCycle) initState).2 =
      [Out.noteOn 11 74 99 1, Out.noteOff 11 74 99 1] := by
  obtain ⟨-, h2, h3⟩ := runLoop_key inps s k hk hlen
  rw [hoff] at h2 h3
  exact ⟨h3, h2, by decide, by cases L <;> decide, by cases L <;> decide⟩

/-- C6, at key 3 of the initial state and the samples false, false, true, true,
false. -/
theorem touch_edge_detection_witness :
    keyEdges 3 (runLoop Layout.cursor ([false, false, true, true, false].map (touchCycle 3))
        initState).2 =
      specEdges false (samples 3 ([false, false, true, true, false].map (touchCycle 3))) ∧
    samples 3 ([false, false, true, true, false].map (touchCycle 3)) =
      [false, false, true, true, false] :=
  ⟨(touch_edge_detection Layout.cursor ([false, false, true, true, false].map (touchCycle 3))
      initState 3 (by decide) (by decide) (by decide)).1, by decide⟩

/-- C7: in an execution of `loop` in which no status byte is available,
and over any number of such executions, `enableBend` and the stored states
of the keys from 11 on are unchanged and no note-on or note-off is made for
those keys, whatever the pins and the telemetry do; a remote key that is on
stays on. -/
theorem remote_persistence (L : Layout) (inp : LoopInput) (inps : List LoopInput) (s : State)
    (hinp : inp.status = none) (hnone : ∀ i ∈ inps, i.status = none) :
    ((loop L inp s).1.enableBend = s.enableBend ∧
      ∀ k, 11 ≤ k → (loop L inp s).1.notesOn[k]? = s.notesOn[k]? ∧
        keyEdges k (loop L inp s).2 = []) ∧
    ((runLoop L inps s).1.enableBend = s.enableBend ∧
      ∀ k, 11 ≤ k → (runLoop L inps s).1.notesOn[k]? = s.notesOn[k]? ∧
        keyEdges k (runLoop L inps s).2 = [] ∧
        (s.notesOn.getD k false = true → (runLoop L inps s).1.notesOn.getD k false = true)) := by
  have hone : ∀ (j : LoopInput) (t : State), j.status = none →
      (loop L j t).1.enableBend = t.enableBend ∧
      ∀ k, 11 ≤ k → (loop L j t).1.notesOn[k]? = t.notesOn[k]? ∧ keyEdges k (loop L j t).2 = [] := by
    intro j t hj
    rw [loop_none j t hj]
    exact ⟨(localLoop_frame j t).2, fun k hk => localLoop_remote j t k hk⟩
  refine ⟨hone inp s hinp, ?_⟩
  induction inps generalizing s with
  | nil =>
    refine ⟨rfl, fun k _ => ⟨rfl, rfl, fun h => h⟩⟩
  | cons j js ih =>
    obtain ⟨hb, hk⟩ := hone j s (hnone j (List.mem_cons_self _ _))
    obtain ⟨ib, ik⟩ := ih (loop L j s).1 (fun i hi => hnone i (List.mem_cons_of_mem _ hi))
    refine ⟨by simp only [runLoop]; rw [ib, hb], fun k h11 => ?_⟩
    obtain ⟨k1, k2⟩ := hk k h11
    obtain ⟨i1, i2, -⟩ := ik k h11
    have hsame : (runLoop L (j :: js) s).1.notesOn[k]? = s.notesOn[k]? := by
      simp only [runLoop]
      rw [i1, k1]
    refine ⟨hsame, ?_, ?_⟩
    · simp only [runLoop, keyEdges_append, k2, i2, List.append_nil]
    · intro h
      rw [List.getD_eq_getElem?_getD, hsame, ← List.getD_eq_getElem?_getD]
      exact h

/-- C7, at a state in which remote key 11 was turned on by the status byte 1. -/
theorem remote_persistence_witness :
    (runLoop Layout.cursor [touchCycle 3 true, touchCycle 3 false, touchCycle 5 true]
      (loop Layout.cursor (statusCycle 1) initState).1).1.notesOn.getD 11 false = true :=
  (((remote_persistence Layout.cursor (touchCycle 3 true)
      [touchCycle 3 true, touchCycle 3 false, touchCycle 5 true]
      (loop Layout.cursor (statusCycle 1) initState).1 rfl (by decide)).2).2 11
        (by decide)).2.2 (by decide)

/-- C10: after an execution of `loop` in which the status byte `p` was
read, `enableBend` is bit 6 of `p` and, for every `i` in 0..5, the stored
state of key `11 + i` is bit `i` of `p`. -/
theorem remote_status_decode (L : Layout) (inp : LoopInput) (s : State) (p : Nat)
    (hs : inp.status = some p) (hlen : s.notesOn.length = 17) :
    (loop L inp s).1.enableBend = p.testBit 6 ∧
    ∀ i, i < 6 → (loop L inp s).1.notesOn.getD (11 + i) false = p.testBit i := by
  rw [loop_some inp s p hs]
  have hl := (@localLoop_frame L inp s).1
  refine ⟨(remoteStatus_frame p ((List.range 11).foldl (localStep L inp) (s, [])).1).2,
    fun i hi => ?_⟩
  rw [Nat.add_comm 11 i]
  exact (remoteStatus_remote p ((List.range 11).foldl (localStep L inp) (s, [])).1 i hi
    (by rw [hl]; omega)).1

/-- C10, at the initial state and the status byte 0x45. -/
theorem remote_status_decode_witness :
    (loop Layout.cursor (statusCycle 0x45) initState).1.enableBend = true ∧
    (loop Layout.cursor (statusCycle 0x45) initState).1.notesOn.drop 11 =
      [true, false, true, false, false, false] ∧
    (loop Layout.cursor (statusCycle 0x45) initState).1.enableBend = (0x45).testBit 6 :=
  ⟨by decide, by decide,
    (remote_status_decode Layout.cursor (statusCycle 0x45) initState 0x45 rfl (by decide)).1⟩

/-! ## The scale generator -/

/-- The first `n` iterations of the loop of `scaleToMidiValues`: entry 0 is
kept, entry `i` in `1..n` is the tonic plus the first `i` steps, reduced
modulo 256, and the entries after `n` are not yet written. -/
theorem scaleFold (scale : List Nat) (size : Nat) (mv : List Nat) (n : Nat)
    (hn : n < mv.length) :
    ((List.range' 1 n).foldl (scaleStep scale size) mv).length = mv.length ∧
    ((List.range' 1 n).foldl (scaleStep scale size) mv).getD 0 0 = mv.getD 0 0 ∧
    (∀ i, 1 ≤ i → i ≤ n →
      ((List.range' 1 n).foldl (scaleStep scale size) mv).getD i 0 =
        (mv.getD 0 0 + stepSum scale size i) % 256) := by
  induction n with
  | zero =>
    refine ⟨rfl, rfl, ?_⟩
    intro i h1 h0
    omega
  | succ n ih =>
    obtain ⟨h1, h2, h3⟩ := ih (by omega)
    rw [List.range'_1_concat, List.foldl_append]
    simp only [List.foldl_cons, List.foldl_nil, scaleStep]
    have hsub : 1 + n - 1 = n := by omega
    rw [hsub]
    have hprev : ((List.range' 1 n).foldl (scaleStep scale size) mv).getD n 0 % 256 =
        (mv.getD 0 0 + stepSum scale size n) % 256 := by
      rcases Nat.eq_zero_or_pos n with h0 | hpos
      · subst h0
        simp [stepSum]
      · rw [h3 n hpos (Nat.le_refl n), Nat.mod_mod]
    refine ⟨by rw [List.length_set, h1], ?_, ?_⟩
    · rw [List.getD_eq_getElem?_getD, List.getElem?_set_ne (by omega),
        ← List.getD_eq_getElem?_getD, h2]
    · intro i hi1 hi2
      by_cases hlast : i = n + 1
      · subst hlast
        rw [List.getD_eq_getElem?_getD, Nat.add_comm 1 n,
          List.getElem?_set_self (by rw [h1]; omega)]
        simp only [Option.getD_some, stepSum]
        rw [← Nat.mod_add_mod, hprev, Nat.mod_add_mod, Nat.add_assoc]
      · rw [List.getD_eq_getElem?_getD, List.getElem?_set_ne (by omega),
          ← List.getD_eq_getElem?_getD]
        exact h3 i hi1 (by omega)

theorem stepSum_mono (P : List Nat) (L : Nat) (i j : Nat) (h : i ≤ j) :
    stepSum P L i ≤ stepSum P L j := by
  induction j with
  | zero =>
    have : i = 0 := by omega
    subst this
    exact Nat.le_refl _
  | succ j ih =>
    rcases Nat.eq_or_lt_of_le h with h | h
    · rw [h]
    · exact Nat.le_trans (ih (by omega)) (by simp [stepSum])

/-- C8 (as stated, refuted): with tonic 250 and the major pattern, entry 4
of the generated table is 1, not 250 + (2 + 2 + 1 + 2) = 257, and it is not
entry 3 plus the fourth step either. -/
theorem scale_generation_wraps :
    (scaleToMidiValues majorscale 7 (withTonic 250)).midiValues.getD 4 0 ≠
      250 + stepSum majorscale 7 4 ∧
    (scaleToMidiValues majorscale 7 (withTonic 250)).midiValues.getD 4 0 ≠
      (scaleToMidiValues majorscale 7 (withTonic 250)).midiValues.getD 3 0 +
        majorscale.getD (3 % 7) 0 ∧
    (scaleToMidiValues majorscale 7 (withTonic 250)).midiValues.getD 4 0 = 1 := by
  decide

/-- C8 (amended): for a table of 17 entries with tonic `T` in entry 0 and a
pattern read through its first `size > 0` entries, after
`scaleToMidiValues` the table still has 17 entries, entry 0 is `T`, and for
every `i` in 1..16 the read `scale[(i - 1) % size]` is inside the pattern,
entry `i` is `T` plus the first `i` steps reduced modulo 256, which is
entry `i - 1` plus step `(i - 1) % size` reduced modulo 256, and is the
plain sum whenever that sum is at most 255.  For `T = 60` and the major
pattern the first eight entries are 60, 62, 64, 65, 67, 69, 71, 72. -/
theorem scale_generation_mod256 (s : State) (scale : List Nat) (size : Nat)
    (hsize : 0 < size) (hle : size ≤ scale.length) (hlen : s.midiValues.length = 17) :
    (scaleToMidiValues scale size s).midiValues.length = 17 ∧
    (scaleToMidiValues scale size s).midiValues.getD 0 0 = s.midiValues.getD 0 0 ∧
    (∀ i, 1 ≤ i → i ≤ 16 →
      (i - 1) % size < scale.length ∧
      (scaleToMidiValues scale size s).midiValues.getD i 0 =
        (s.midiValues.getD 0 0 + stepSum scale size i) % 256 ∧
      (scaleToMidiValues scale size s).midiValues.getD i 0 =
        ((scaleToMidiValues scale size s).midiValues.getD (i - 1) 0 +
          scale.getD ((i - 1) % size) 0) % 256 ∧
      (s.midiValues.getD 0 0 + stepSum scale size i ≤ 255 →
        (scaleToMidiValues scale size s).midiValues.getD i 0 =
          s.midiValues.getD 0 0 + stepSum scale size i)) ∧
    (scaleToMidiValues majorscale 7 (withTonic 60)).midiValues.take 8 =
      [60, 62, 64, 65, 67, 69, 71, 72] := by
  obtain ⟨h1, h2, h3⟩ := scaleFold scale size s.midiValues 16 (by omega)
  have hT : (scaleToMidiValues scale size s).midiValues =
      (List.range' 1 16).foldl (scaleStep scale size) s.midiValues := by
    simp only [scaleToMidiValues]
  refine ⟨?_, ?_, ?_, by decide⟩
  · rw [hT, h1, hlen]
  · rw [hT, h2]
  rw [hT]
  generalize (List.range' 1 16).foldl (scaleStep scale size) s.midiValues = t at h1 h2 h3
  intro i hi1 hi2
  have hi := h3 i hi1 hi2
  refine ⟨Nat.lt_of_lt_of_le (Nat.mod_lt _ hsize) hle, hi, ?_, ?_⟩
  · rw [hi]
    obtain ⟨j, rfl⟩ : ∃ j, i = j + 1 := ⟨i - 1, by omega⟩
    simp only [Nat.add_sub_cancel, stepSum]
    rcases Nat.eq_zero_or_pos j with h0 | hpos
    · subst h0
      rw [h2]
      simp [stepSum]
    · rw [h3 j hpos (by omega), Nat.mod_add_mod, Nat.add_assoc]
  · intro hsum
    rw [hi, Nat.mod_eq_of_lt (by omega)]

/-- C8 (amended), at tonic 60 and the minor pattern. -/
theorem scale_generation_mod256_witness :
    (scaleToMidiValues minorscale 7 (withTonic 60)).midiValues.getD 16 0 =
      (60 + stepSum minorscale 7 16) % 256 ∧
    (scaleToMidiValues minorscale 7 (withTonic 60)).midiValues.getD 16 0 = 87 :=
  ⟨((scale_generation_mod256 (withTonic 60) minorscale 7 (by decide) (by decide)
      (by decide)).2.2.1 16 (by decide) (by decide)).2.1, by decide⟩

/-- C9 (as stated, refuted): the major pattern has only positive steps,
yet with tonic 250 the generated table falls from 255 at entry 3 to 1 at
entry 4. -/
theorem scale_not_increasing_on_wrap :
    (∀ x ∈ majorscale, 0 < x) ∧
    (scaleToMidiValues majorscale 7 (withTonic 250)).midiValues.getD 3 0 = 255 ∧
    (scaleToMidiValues majorscale 7 (withTonic 250)).midiValues.getD 4 0 = 1 ∧
    ¬ ((scaleToMidiValues majorscale 7 (withTonic 250)).midiValues.getD 3 0 <
        (scaleToMidiValues majorscale 7 (withTonic 250)).midiValues.getD 4 0) := by
  decide

/-- C9 (amended): for a table of 17 entries and a pattern whose steps are
all positive, when the tonic plus the sixteen steps is at most 255 (no
8-bit wrap), the table produced by `scaleToMidiValues` is strictly
increasing: entry `i - 1` is below entry `i` for every `i` in 1..16. -/
theorem scale_strictly_increasing (s : State) (scale : List Nat) (size : Nat)
    (hsize : 0 < size) (hle : size ≤ scale.length) (hlen : s.midiValues.length = 17)
    (hpos : ∀ x ∈ scale, 0 < x)
    (hfit : s.midiValues.getD 0 0 + stepSum scale size 16 ≤ 255) :
    ∀ i, 1 ≤ i → i ≤ 16 →
      (scaleToMidiValues scale size s).midiValues.getD (i - 1) 0 <
        (scaleToMidiValues scale size s).midiValues.getD i 0 := by
  obtain ⟨-, h2, h3⟩ := scaleFold scale size s.midiValues 16 (by omega)
  have hT : (scaleToMidiValues scale size s).midiValues =
      (List.range' 1 16).foldl (scaleStep scale size) s.midiValues := by
    simp only [scaleToMidiValues]
  rw [hT]
  generalize (List.range' 1 16).foldl (scaleStep scale size) s.midiValues = t at h2 h3
  have hval : ∀ i, i ≤ 16 → t.getD i 0 = s.midiValues.getD 0 0 + stepSum scale size i := by
    intro i hi
    rcases Nat.eq_zero_or_pos i with h0 | hp
    · subst h0
      simpa [stepSum] using h2
    · have hm := stepSum_mono scale size i 16 hi
      rw [h3 i hp hi, Nat.mod_eq_of_lt (by omega)]
  intro i hi1 hi2
  obtain ⟨j, rfl⟩ : ∃ j, i = j + 1 := ⟨i - 1, by omega⟩
  rw [Nat.add_sub_cancel, hval j (by omega), hval (j + 1) hi2]
  have hin : j % size < scale.length := Nat.lt_of_lt_of_le (Nat.mod_lt _ hsize) hle
  have hstep : 0 < scale.getD (j % size) 0 := by
    rw [List.getD_eq_getElem _ _ hin]
    exact hpos _ (List.getElem_mem hin)
  simp only [stepSum]
  omega

/-- C9 (amended), at the initial table and the minor pattern. -/
theorem scale_strictly_increasing_witness :
    (scaleToMidiValues minorscale 7 initState).midiValues.getD 15 0 <
      (scaleToMidiValues minorscale 7 initState).midiValues.getD 16 0 :=
  scale_strictly_increasing initState minorscale 7 (by decide) (by decide) (by decide)
    (by decide) (by decide) 16 (by decide) (by decide)

/-! ## Preamble, payload and decode steps -/

/-- C12: for every byte `c`, a parser in `case 1` reading a byte other than
`'T'`, or in `case 2` reading a byte other than `'A'`, goes to `case 0`,
and a parser in `case 0` reading a byte other than `'$'` stays there; the
step emits nothing and changes nothing else (cursor, payload buffer and
all other variables are kept). -/
theorem preamble_mismatch_resets (L : Layout) (s : State) (c : Nat) (hc : c < 256)
    (h : (s.state = 1 ∧ c ≠ 84) ∨ (s.state = 2 ∧ c ≠ 65) ∨ (s.state = 0 ∧ c ≠ 36)) :
    serial3byte L c s = ({ s with state := 0 }, []) ∧
    (serial3byte L c s).1.state = 0 ∧
    (serial3byte L c s).1.idx = s.idx ∧
    (serial3byte L c s).1.rpy = s.rpy ∧
    (serial3byte L c s).2 = [] := by
  have hm : c % 256 = c := Nat.mod_eq_of_lt hc
  have hstep : serial3byte L c s = ({ s with state := 0 }, []) := by
    obtain ⟨no, mv, eb, st, ix, rpy, lp, lr⟩ := s
    rcases h with ⟨h1, h2⟩ | ⟨h1, h2⟩ | ⟨h1, h2⟩ <;> simp only at h1 <;> subst h1 <;>
      simp [serial3byte, hm, h2]
  rw [hstep]
  exact ⟨rfl, rfl, rfl, rfl, rfl⟩

/-- C12, at the initial state moved to `case 1` and the byte `'$'`. -/
theorem preamble_mismatch_resets_witness :
    serial3byte Layout.cursor 36 { initState with state := 1 } = (initState, []) ∧
    serial3byte Layout.spare 36 { initState with state := 1 } = (initState, []) :=
  ⟨(preamble_mismatch_resets Layout.cursor { initState with state := 1 } 36 (by decide)
    (Or.inl ⟨rfl, by decide⟩)).1,
   (preamble_mismatch_resets Layout.spare { initState with state := 1 } 36 (by decide)
    (Or.inl ⟨rfl, by decide⟩)).1⟩

/-- The payload buffer after a step, for a buffer of six cells: the byte is
stored at `storeIndex` when that index is one of the array, and the buffer
is kept otherwise. -/
theorem serial3byte_rpy (c : Nat) (s : State) (hl : s.rpy.length = 6) :
    (serial3byte L c s).1.rpy =
      match storeIndex s with
      | some i => s.rpy.set i (toInt8 (c % 256))
      | none => s.rpy := by
  unfold serial3byte storeIndex
  split
  · simp only []; split_ifs <;> simp_all
  · simp only []; split_ifs <;> simp_all
  · simp only []; split_ifs <;> simp_all
  · rename_i h3
    simp only []
    split_ifs with h1 h2 h5 h6 <;> simp_all
    · rw [(spill_fields _ _).2.2.2.2.1]
      simp only []
      rw [List.set_eq_of_length_le (by omega)]
  · rename_i h4
    simp only []
    have : ¬ (s.state = 3 ∧ s.idx < 6) := fun h => by omega
    split_ifs <;> simp_all
  · rename_i h0 h1 h2 h3 h4
    have : ¬ (s.state = 3 ∧ s.idx < 6) := fun h => h3 h.1
    simp [this]

/-- C14 (evaluation at the failing input): when the sixth payload byte of
`'$' 'T' 'A'` 1, 10, 2, 20, 3, 30 is read, the store index is 6, which is
not an index of the 6-element buffer; the earlier payload bytes are stored
at indices 1 to 5 and index 0 is never written.  The evaluation is the
same in either placement. -/
theorem payload_store_out_of_bounds (L : Layout) :
    storeIndex (serial3state L [36, 84, 65, 1, 10, 2, 20, 3] initState).1 = some 6 ∧
    (serial3state L [36, 84, 65, 1, 10, 2, 20, 3] initState).1.rpy.length = 6 ∧
    storeIndex (serial3state L [36, 84, 65] initState).1 = some 1 ∧
    storeIndex (serial3state L [36, 84, 65, 1] initState).1 = some 2 ∧
    storeIndex (serial3state L [36, 84, 65, 1, 10, 2, 20] initState).1 = some 5 ∧
    (serial3state L [36, 84, 65, 1, 10, 2, 20, 3, 30] initState).1.rpy =
      [0, 1, 10, 2, 20, 3] := by
  cases L <;> decide

/-- In every state reached from the initial one, a store of `case 3`
targets an index between 1 and 6. -/
theorem storeIndex_reachable (bytes : List Nat) (i : Nat)
    (h : storeIndex (serial3state L bytes initState).1 = some i) : 1 ≤ i ∧ i ≤ 6 := by
  unfold storeIndex at h
  split at h
  · rename_i hc
    have hi : (serial3state L bytes initState).1.idx < 6 := hc.2
    simp only [Option.some.injEq] at h
    omega
  · simp at h

/-- C18: for every state in `case 4` with `enableBend` false, the frame
makes at most one pitch-bend call, of value 0 on channel 1, and makes it
exactly when the tracked pitch `lastp` (the decoded pitch, if `lastp` has
not been initialised yet) is non-zero; an initialised `lastp` is left
unchanged, and an uninitialised one takes the decoded pitch.  Steps outside
`case 4` never write `lastp`. -/
theorem disabled_bend_zero_only (L : Layout) (s : State) (c : Nat) (h4 : s.state = 4)
    (hb : s.enableBend = false) (t : State) (ht : t.state ≠ 4) :
    bends (serial3byte L c s).2 =
      (if s.lastp.getD (s.rpy.getD 1 0) ≠ 0 then [(0, 1)] else []) ∧
    (∀ e ∈ bends (serial3byte L c s).2, e = (0, 1)) ∧
    (bends (serial3byte L c s).2).length ≤ 1 ∧
    (bends (serial3byte L c s).2 ≠ [] ↔ s.lastp.getD (s.rpy.getD 1 0) ≠ 0) ∧
    (∀ v, s.lastp = some v → (serial3byte L c s).1.lastp = some v) ∧
    (s.lastp = none → (serial3byte L c s).1.lastp = some (s.rpy.getD 1 0)) ∧
    (serial3byte L c s).1.enableBend = false ∧
    (serial3byte L c t).1.lastp = t.lastp := by
  have hbends : bends (serial3byte L c s).2 =
      (if s.lastp.getD (s.rpy.getD 1 0) ≠ 0 then [(0, 1)] else []) := by
    rw [serial3byte_case4_disabled s c h4 hb]
    generalize s.lastp.getD (s.rpy.getD 1 0) = q
    by_cases hp : q = 0 <;> simp [bends, hp]
  have hlast : (serial3byte L c s).1.lastp = some (s.lastp.getD (s.rpy.getD 1 0)) := by
    rw [serial3byte_case4_disabled s c h4 hb]
  refine ⟨hbends, ?_, ?_, ?_, ?_, ?_, ?_, serial3byte_lastp c t ht⟩
  · rw [hbends]
    generalize s.lastp.getD (s.rpy.getD 1 0) = q
    by_cases hp : q = 0 <;> simp [hp]
  · rw [hbends]
    generalize s.lastp.getD (s.rpy.getD 1 0) = q
    by_cases hp : q = 0 <;> simp [hp]
  · rw [hbends]
    generalize s.lastp.getD (s.rpy.getD 1 0) = q
    by_cases hp : q = 0 <;> simp [hp]
  · intro v hv
    rw [hlast, hv]
    rfl
  · intro hn
    rw [hlast, hn]
    rfl
  · rw [serial3byte_enableBend, hb]

/-- C18, at the state reached from the initial one by a frame with six
payload bytes 10 and ten bytes of a frame with six payload bytes 7, bend
being disabled and the out-of-bounds store falling on the cursor. -/
theorem disabled_bend_zero_only_witness :
    bends (serial3byte Layout.cursor 0
      (serial3state Layout.cursor
        [36, 84, 65, 10, 10, 10, 10, 10, 10, 0, 0, 36, 84, 65, 7, 7, 7, 7, 7, 7, 0]
        initState).1).2 = [(0, 1)] ∧
    (serial3byte Layout.cursor 0
      (serial3state Layout.cursor
        [36, 84, 65, 10, 10, 10, 10, 10, 10, 0, 0, 36, 84, 65, 7, 7, 7, 7, 7, 7, 0]
        initState).1).1.lastp = some 10 :=
  have h := disabled_bend_zero_only Layout.cursor
    (serial3state Layout.cursor
      [36, 84, 65, 10, 10, 10, 10, 10, 10, 0, 0, 36, 84, 65, 7, 7, 7, 7, 7, 7, 0]
      initState).1 0
    (by decide) (by decide) initState (by decide)
  ⟨h.1.trans (by decide), h.2.2.2.2.1 10 (by decide)⟩

/-! ## Note payloads -/

theorem serial3byte_noteCallOK (mv : List Nat) (c : Nat) (s : State) :
    ∀ e ∈ (serial3byte L c s).2, noteCallOK mv e := by
  unfold serial3byte
  split <;> simp only [] <;> (try split_ifs) <;> simp [noteCallOK]

theorem serial3state_noteCallOK (mv : List Nat) (bytes : List Nat) (s : State) :
    ∀ e ∈ (serial3state L bytes s).2, noteCallOK mv e := by
  induction bytes generalizing s with
  | nil => simp [serial3state]
  | cons c cs ih =>
    intro e he
    simp only [serial3state, List.mem_append] at he
    rcases he with he | he
    · exact serial3byte_noteCallOK mv c s e he
    · exact ih _ e he

theorem touchKey_noteCallOK (k : Nat) (t : Bool) (s : State) (hk : k < 17) :
    ∀ e ∈ (touchKey k t s).2, noteCallOK s.midiValues e := by
  unfold touchKey
  split <;> split <;> simp [noteCallOK, hk]

theorem touchFold_midiValues (pre : Nat → State → State × List Out) (key : Nat → Nat)
    (smp : Nat → Bool) (hm : ∀ i s, (pre i s).1.midiValues = s.midiValues)
    (l : List Nat) (acc : State × List Out) :
    (l.foldl (touchFold pre key smp) acc).1.midiValues = acc.1.midiValues := by
  induction l generalizing acc with
  | nil => rfl
  | cons i l ih =>
    rw [List.foldl_cons, ih]
    simp only [touchFold]
    rw [touchKey_midiValues, hm]

theorem touchFold_noteCallOK (pre : Nat → State → State × List Out) (key : Nat → Nat)
    (smp : Nat → Bool) (mv : List Nat)
    (hm : ∀ i s, (pre i s).1.midiValues = s.midiValues)
    (hp : ∀ i s, ∀ e ∈ (pre i s).2, noteCallOK mv e)
    (l : List Nat) (hl : ∀ i ∈ l, key i < 17) (acc : State × List Out)
    (ha : acc.1.midiValues = mv) (hacc : ∀ e ∈ acc.2, noteCallOK mv e) :
    ∀ e ∈ (l.foldl (touchFold pre key smp) acc).2, noteCallOK mv e := by
  induction l generalizing acc with
  | nil => exact hacc
  | cons i l ih =>
    rw [List.foldl_cons]
    refine ih (fun j hj => hl j (List.mem_cons_of_mem _ hj)) _ ?_ ?_
    · simp only [touchFold]
      rw [touchKey_midiValues, hm, ha]
    · intro e he
      simp only [touchFold, List.mem_append] at he
      rcases he with (he | he) | he
      · exact hacc e he
      · exact hp i acc.1 e he
      · have h := touchKey_noteCallOK (key i) (smp i) (pre i acc.1).1
          (hl i (List.mem_cons_self _ _)) e he
        rwa [hm, ha] at h

/-- One execution of `loop` keeps the table and makes only well-formed note
calls. -/
theorem loop_noteCallOK (inp : LoopInput) (s : State) :
    (loop L inp s).1.midiValues = s.midiValues ∧
    ∀ e ∈ (loop L inp s).2, noteCallOK s.midiValues e := by
  have hlm : ((List.range 11).foldl (localStep L inp) (s, [])).1.midiValues = s.midiValues := by
    rw [localStep_eq]
    exact touchFold_midiValues _ _ _ (fun _ _ => serial3state_midiValues _ _) _ _
  have hlo : ∀ e ∈ ((List.range 11).foldl (localStep L inp) (s, [])).2,
      noteCallOK s.midiValues e := by
    rw [localStep_eq]
    exact touchFold_noteCallOK _ _ _ s.midiValues
      (fun _ _ => serial3state_midiValues _ _)
      (fun _ _ => serial3state_noteCallOK _ _ _) (List.range 11)
      (fun i hi => by have := List.mem_range.1 hi; show i < 17; omega) (s, []) rfl
      (fun e he => by simp at he)
  cases h : inp.status with
  | none =>
    rw [loop_none inp s h]
    exact ⟨hlm, hlo⟩
  | some p =>
    rw [loop_some inp s p h]
    have hrm : (remoteStatus p ((List.range 11).foldl (localStep L inp) (s, [])).1).1.midiValues
        = s.midiValues := by
      unfold remoteStatus
      simp only [remoteStep_eq]
      rw [touchFold_midiValues _ _ _ (fun _ _ => rfl)]
      exact hlm
    have hro : ∀ e ∈ (remoteStatus p ((List.range 11).foldl (localStep L inp) (s, [])).1).2,
        noteCallOK s.midiValues e := by
      unfold remoteStatus
      simp only [remoteStep_eq]
      exact touchFold_noteCallOK _ _ _ s.midiValues (fun _ _ => rfl)
        (fun _ _ e he => by simp at he) (List.range 6)
        (fun i hi => by have := List.mem_range.1 hi; show i + 11 < 17; omega) _ hlm
        (fun e he => by simp at he)
    refine ⟨hrm, fun e he => ?_⟩
    rcases List.mem_append.1 he with he | he
    · exact hlo e he
    · exact hro e he

/-- Successive executions of `loop` keep the table and make only
well-formed note calls. -/
theorem runLoop_noteCallOK (inps : List LoopInput) (s : State) :
    (runLoop L inps s).1.midiValues = s.midiValues ∧
    ∀ e ∈ (runLoop L inps s).2, noteCallOK s.midiValues e := by
  induction inps generalizing s with
  | nil => exact ⟨rfl, fun e he => by simp [runLoop] at he⟩
  | cons inp inps ih =>
    obtain ⟨h1, h2⟩ := loop_noteCallOK inp s
    obtain ⟨i1, i2⟩ := ih (loop L inp s).1
    refine ⟨by simp only [runLoop]; rw [i1, h1], fun e he => ?_⟩
    simp only [runLoop, List.mem_append] at he
    rcases he with he | he
    · exact h2 e he
    · have := i2 e he
      rwa [h1] at this

/-- C11: every note-on and every note-off made for key `k` over any
sequence of executions of `loop` has `k` in 0..16 and carries the note
`midiValues[k] + G - OCTAVE`, that is `midiValues[k] - 5`, with velocity 99
on channel 1; hence all note calls for `k`, and in particular a note-off
and the note-on before it, carry the same note. -/
theorem note_event_payload (L : Layout) (inps : List LoopInput) (s : State) (k : Nat) (n : Int)
    (v c : Nat)
    (h : Out.noteOn k n v c ∈ (runLoop L inps s).2 ∨ Out.noteOff k n v c ∈ (runLoop L inps s).2) :
    k < 17 ∧ n = ((s.midiValues.getD k 0 : Nat) : Int) + G - OCTAVE ∧ G - OCTAVE = -5 ∧
    n = ((s.midiValues.getD k 0 : Nat) : Int) - 5 ∧ v = 99 ∧ c = 1 ∧
    (∀ n' v' c', Out.noteOn k n' v' c' ∈ (runLoop L inps s).2 ∨
        Out.noteOff k n' v' c' ∈ (runLoop L inps s).2 → n' = n) := by
  have hall := (@runLoop_noteCallOK L inps s).2
  have hone : ∀ n' v' c', Out.noteOn k n' v' c' ∈ (runLoop L inps s).2 ∨
      Out.noteOff k n' v' c' ∈ (runLoop L inps s).2 →
      k < 17 ∧ n' = notePitch s.midiValues k ∧ v' = 99 ∧ c' = 1 := by
    intro n' v' c' h'
    rcases h' with h' | h'
    · exact hall _ h'
    · exact hall _ h'
  obtain ⟨hk, hn, hv, hc⟩ := hone n v c h
  have hG : G - OCTAVE = -5 := by decide
  refine ⟨hk, hn, hG, ?_, hv, hc, fun n' v' c' h' => ?_⟩
  · rw [hn]
    simp only [notePitch, G, OCTAVE]
    omega
  · rw [(hone n' v' c' h').2.1, hn]

/-- C11, at key 3 touched and released from the initial state. -/
theorem note_event_payload_witness :
    Out.noteOn 3 60 99 1 ∈
      (runLoop Layout.cursor [touchCycle 3 true, touchCycle 3 false] initState).2 ∧
    Out.noteOff 3 60 99 1 ∈
      (runLoop Layout.cursor [touchCycle 3 true, touchCycle 3 false] initState).2 ∧
    (60 : Int) = ((initState.midiValues.getD 3 0 : Nat) : Int) - 5 :=
  ⟨by decide, by decide,
    (note_event_payload Layout.cursor [touchCycle 3 true, touchCycle 3 false] initState 3 60
      99 1 (Or.inl (by decide))).2.2.2.1⟩

/-! ## The reserved status bit -/

/-- C15: two status bytes that agree on every bit other than bit 7 give the
same execution of `loop`: the same resulting state (in particular `notesOn`
and `enableBend`) and the same trace. -/
theorem reserved_bit_ignored (L : Layout) (inp : LoopInput) (s : State) (p q : Nat)
    (hpq : ∀ i, i ≠ 7 → p.testBit i = q.testBit i) :
    loop L { inp with status := some p } s = loop L { inp with status := some q } s ∧
    (loop L { inp with status := some p } s).1.notesOn =
      (loop L { inp with status := some q } s).1.notesOn ∧
    (loop L { inp with status := some p } s).1.enableBend =
      (loop L { inp with status := some q } s).1.enableBend ∧
    (loop L { inp with status := some p } s).2 = (loop L { inp with status := some q } s).2 := by
  have hrem : ∀ t : State, remoteStatus p t = remoteStatus q t := by
    intro t
    unfold remoteStatus
    simp only []
    rw [and_0x40_testBit p, and_0x40_testBit q, hpq 6 (by decide)]
    apply List.foldl_ext
    intro acc i hi
    have hi6 : i < 6 := List.mem_range.1 hi
    simp only [remoteStep]
    rw [and_shift_testBit p i (by omega), and_shift_testBit q i (by omega),
      hpq i (by omega)]
  have hloc : (List.range 11).foldl (localStep L { inp with status := some p }) (s, []) =
      (List.range 11).foldl (localStep L { inp with status := some q }) (s, []) := rfl
  have heq : loop L { inp with status := some p } s = loop L { inp with status := some q } s := by
    rw [loop_some _ s p rfl, loop_some _ s q rfl, hloc, hrem]
  exact ⟨heq, by rw [heq], by rw [heq], by rw [heq]⟩

/-- The bytes 0x45 and 0xC5 agree on every bit other than bit 7. -/
theorem bits_0x45_0xC5 (i : Nat) (hi : i ≠ 7) :
    (0x45 : Nat).testBit i = (0xC5 : Nat).testBit i := by
  by_cases h7 : i < 7
  · have h : (0xC5 : Nat) = 2 ^ 7 + 0x45 := by norm_num
    rw [h, Nat.testBit_two_pow_add_gt h7]
  · have h8 : 8 ≤ i := by omega
    have hpow : (2 : Nat) ^ 8 ≤ 2 ^ i := Nat.pow_le_pow_right (by norm_num) h8
    rw [Nat.testBit_lt_two_pow (Nat.lt_of_lt_of_le (by norm_num) hpow),
      Nat.testBit_lt_two_pow (Nat.lt_of_lt_of_le (by norm_num) hpow)]

/-- C15, at the initial state and the status bytes 0x45 and 0xC5. -/
theorem reserved_bit_ignored_witness :
    loop Layout.cursor (statusCycle 0x45) initState =
      loop Layout.cursor (statusCycle 0xC5) initState ∧
    (loop Layout.cursor (statusCycle 0xC5) initState).1.enableBend = true :=
  ⟨(reserved_bit_ignored Layout.cursor (statusCycle 0x45) initState 0x45 0xC5
      bits_0x45_0xC5).1,
    by decide⟩

/-! ## Alternation of note-on and note-off -/

theorem specEdges_alternates (prev : Bool) (xs : List Bool) :
    alternates (!prev) (specEdges prev xs) = true := by
  induction xs generalizing prev with
  | nil => rfl
  | cons x xs ih =>
    simp only [specEdges]
    split
    · rename_i h
      rw [← h]
      exact ih x
    · rename_i h
      have hx : x = !prev := by
        cases x <;> cases prev <;> simp_all
      subst hx
      simp only [alternates, beq_self_eq_true, Bool.true_and]
      exact ih _

theorem specEdges_count (prev : Bool) (xs : List Bool) :
    prev.toNat + (specEdges prev xs).count true =
      (specEdges prev xs).count false + (xs.getLast?.getD prev).toNat := by
  induction xs generalizing prev with
  | nil => simp [specEdges]
  | cons x xs ih =>
    rw [lastD_cons]
    simp only [specEdges]
    split
    · rename_i h
      rw [← h]
      exact ih x
    · rename_i h
      have h' := ih x
      cases x <;> cases prev <;> simp_all <;> omega

/-- C17: after any sequence of executions of `loop` from the initial state,
for every key `k` in 0..16 the note calls made so far for `k` alternate
strictly, starting with a note-on; the stored state of `k` is true iff the
note-ons outnumber the note-offs by exactly one, and false iff there are as
many of each. -/
theorem note_on_off_alternation (L : Layout) (inps : List LoopInput) (k : Nat) (hk : k < 17) :
    alternates true (keyEdges k (runLoop L inps initState).2) = true ∧
    ((runLoop L inps initState).1.notesOn.getD k false = true ↔
      (keyEdges k (runLoop L inps initState).2).count true =
        (keyEdges k (runLoop L inps initState).2).count false + 1) ∧
    ((runLoop L inps initState).1.notesOn.getD k false = false ↔
      (keyEdges k (runLoop L inps initState).2).count true =
        (keyEdges k (runLoop L inps initState).2).count false) := by
  have hoff : initState.notesOn.getD k false = false := by
    have : ∀ j, j < 17 → initState.notesOn.getD j false = false := by decide
    exact this k hk
  obtain ⟨-, h2, h3⟩ := runLoop_key inps initState k hk rfl
  rw [hoff] at h2 h3
  have ha := specEdges_alternates false (samples k inps)
  have hc := specEdges_count false (samples k inps)
  rw [← h3, ← h2] at hc
  rw [← h3] at ha
  refine ⟨ha, ?_, ?_⟩
  · cases hv : (runLoop L inps initState).1.notesOn.getD k false <;> simp_all
  · cases hv : (runLoop L inps initState).1.notesOn.getD k false <;> simp_all

/-- C17, at key 11 after the status bytes 1, 1, 0, 1. -/
theorem note_on_off_alternation_witness :
    alternates true
      (keyEdges 11 (runLoop Layout.cursor ([1, 1, 0, 1].map statusCycle) initState).2) = true ∧
    keyEdges 11 (runLoop Layout.cursor ([1, 1, 0, 1].map statusCycle) initState).2 =
      [true, false, true] :=
  ⟨(note_on_off_alternation Layout.cursor ([1, 1, 0, 1].map statusCycle) 11 (by decide)).1,
    by decide⟩

/-! ## The table in use -/

/-- C19: applying `scaleToMidiValues(minorscale, 7)` to the initial state
changes nothing: the literal table 60, 62, 63, 65, 67, 68, 70, 72, 74, 75,
77, 79, 80, 82, 84, 86, 87 is the table generated from its tonic 60 and
the step pattern 2, 1, 2, 2, 1, 2, 2. -/
theorem minor_table_fixed_point :
    scaleToMidiValues minorscale 7 initState = initState ∧
    (scaleToMidiValues minorscale 7 initState).midiValues =
      [60, 62, 63, 65, 67, 68, 70, 72, 74, 75, 77, 79, 80, 82, 84, 86, 87] ∧
    (scaleToMidiValues minorscale 7 (withTonic 60)).midiValues = initState.midiValues ∧
    minorscale = [2, 1, 2, 2, 1, 2, 2] ∧ minorscale.length = 7 := by
  decide

/-- The notes of the seventeen keys for the table in use. -/
theorem notePitch_table :
    (∀ i, i < 17 → 55 ≤ notePitch midiValues i ∧ notePitch midiValues i ≤ 82) ∧
    (∀ i, i < 17 → ∀ j, j < 17 → i ≠ j → notePitch midiValues i ≠ notePitch midiValues j) := by
  decide

/-- C20: with the table in use and `KEY` expanding to `G - OCTAVE`, the note
`midiValues[i] + KEY` of every key `i` in 0..16 lies between 55 and 82,
hence in 0..127 and unchanged by a conversion to 8 bits; the lowest is 55
and the highest 82; distinct keys have distinct notes; and every note call
made in a run from the initial state carries a note between 55 and 82. -/
theorem emitted_pitches_valid (L : Layout) (inps : List LoopInput) (k : Nat) (n : Int) (v c : Nat)
    (h : Out.noteOn k n v c ∈ (runLoop L inps initState).2 ∨
      Out.noteOff k n v c ∈ (runLoop L inps initState).2) :
    (∀ i, i < 17 → 0 ≤ notePitch midiValues i ∧ notePitch midiValues i ≤ 127 ∧
      55 ≤ notePitch midiValues i ∧ notePitch midiValues i ≤ 82 ∧
      notePitch midiValues i % 256 = notePitch midiValues i) ∧
    notePitch midiValues 0 = 55 ∧ notePitch midiValues 16 = 82 ∧
    (∀ i, i < 17 → ∀ j, j < 17 → i ≠ j → notePitch midiValues i ≠ notePitch midiValues j) ∧
    n = notePitch midiValues k ∧ 55 ≤ n ∧ n ≤ 82 := by
  have hall := (@runLoop_noteCallOK L inps initState).2
  have hk : k < 17 ∧ n = notePitch initState.midiValues k ∧ v = 99 ∧ c = 1 := by
    rcases h with h | h
    · exact hall _ h
    · exact hall _ h
  have hn : n = notePitch midiValues k := hk.2.1
  obtain ⟨hr, hd⟩ := notePitch_table
  have hkr := hr k hk.1
  refine ⟨fun i hi => ?_, by decide, by decide, hd, hn, by omega, by omega⟩
  have := hr i hi
  refine ⟨by omega, by omega, this.1, this.2, ?_⟩
  omega

/-- C20, at the note-on of key 16 from the initial state. -/
theorem emitted_pitches_valid_witness :
    Out.noteOn 16 82 99 1 ∈ (runLoop Layout.cursor [statusCycle 0x20] initState).2 ∧
    (82 : Int) = notePitch midiValues 16 :=
  ⟨by decide,
    (emitted_pitches_valid Layout.cursor [statusCycle 0x20] 16 82 99 1
      (Or.inl (by decide))).2.2.2.2.1⟩

end EMMMAK
